import Mathlib

/-!
Verification of the libCacheSim core: the concurrent chained hash table
(src/libCacheSim/dataStructure/hashtable/cChainedHashTable.c) and the SLRU
eviction policy (src/libCacheSim/cache/eviction/SLRU.c).

The hash table is embedded as a map from bucket ids to bucket chains; a chain
is the list of nodes linked through hash_next (position j+1 in the list is the
hash_next of position j, the tail of the list ends in NULL).  Lock operations
guard single-bucket critical sections and are identities on the sequential
state, so they do not appear in the embedding.  The hash function
get_hash_value_int_64 lives outside the modelled sources, so every operation is
parameterised by an arbitrary hash function hv.
-/

namespace LibCacheSim

/-- A cache_obj_t node as the hash table sees it: nid is the node's identity
(its address), obj_id the key, in_cache the residency flag. -/
structure CacheObj where
  nid : Nat
  obj_id : Nat
  in_cache : Bool
deriving DecidableEq, Repr

/-- A bucket chain: the list of nodes linked through hash_next. -/
abbrev Chain := List CacheObj

/-- hashmask(hashpower) from the C macro: 2^hashpower - 1. -/
def hashmask (hp : Nat) : Nat := 2 ^ hp - 1

/-- The hashtable_t state: hashpower, the ptr_table of bucket heads, n_obj. -/
structure hashtable_t where
  hashpower : Nat
  ptr_table : Nat → Chain
  n_obj : Nat

/-- Bucket id of a key: hv(obj_id) & hashmask(hashpower). -/
def hashBucket (hv : Nat → Nat) (hp k : Nat) : Nat := hv k &&& hashmask hp

/-- find_pointer_locked followed by a dereference: walk the chain and return
the first node whose obj_id matches, or none. -/
def chainFind : Chain → Nat → Option CacheObj
  | [], _ => none
  | o :: rest, k => if o.obj_id = k then some o else chainFind rest k

/-- The chain effect of concurrent_chained_hashtable_insert_obj: walk with the
double pointer; on a match the new node takes the old node's hash_next and its
chain cell (returning the detached old node with in_cache=false); at NULL the
new node is stored into the terminal hash_next cell (appended).  The new node's
in_cache is set to false in both cases. -/
def chainInsert (newObj : CacheObj) : Chain → Option CacheObj × Chain
  | [] => (none, [{ newObj with in_cache := false }])
  | o :: rest =>
    if o.obj_id = newObj.obj_id then
      (some { o with in_cache := false }, { newObj with in_cache := false } :: rest)
    else
      let r := chainInsert newObj rest
      (r.1, o :: r.2)

/-- The chain effect of concurrent_chained_hashtable_delete_obj_id: the first
matching node is spliced out (its hash_next replaces it in the cell) and
returned with in_cache=false. -/
def chainDelete : Chain → Nat → Option CacheObj × Chain
  | [], _ => (none, [])
  | o :: rest, k =>
    if o.obj_id = k then (some { o with in_cache := false }, rest)
    else
      let r := chainDelete rest k
      (r.1, o :: r.2)

/-- concurrent_chained_hashtable_find_obj_id. -/
def ht_find (hv : Nat → Nat) (ht : hashtable_t) (k : Nat) : Option CacheObj :=
  chainFind (ht.ptr_table (hashBucket hv ht.hashpower k)) k

/-- concurrent_chained_hashtable_insert_obj: chain update in the key's bucket;
n_obj increments exactly when no old node was replaced; the detached old node
(if any) is returned. -/
def ht_insert (hv : Nat → Nat) (ht : hashtable_t) (obj : CacheObj) :
    Option CacheObj × hashtable_t :=
  let b := hashBucket hv ht.hashpower obj.obj_id
  let r := chainInsert obj (ht.ptr_table b)
  (r.1, ⟨ht.hashpower, Function.update ht.ptr_table b r.2,
         if r.1.isSome then ht.n_obj else ht.n_obj + 1⟩)

/-- concurrent_chained_hashtable_delete_obj_id: when the key is absent nothing
is written; otherwise the node is unlinked, n_obj decremented, the node
returned. -/
def ht_delete (hv : Nat → Nat) (ht : hashtable_t) (k : Nat) :
    Option CacheObj × hashtable_t :=
  let b := hashBucket hv ht.hashpower k
  match chainDelete (ht.ptr_table b) k with
  | (none, _) => (none, ht)
  | (some o, chain2) =>
    (some o, ⟨ht.hashpower, Function.update ht.ptr_table b chain2, ht.n_obj - 1⟩)

/-- concurrent_chained_hashtable_rand_obj: the while loop, with the stream of
values produced by next_rand() given as a list.  Each draw probes one bucket;
the loop exits with the bucket head at the first non-empty bucket.  An empty
result means the C loop is still running after consuming all the given
draws. -/
def rand_obj_loop (ht : hashtable_t) : List Nat → Option CacheObj
  | [] => none
  | r :: rs =>
    match ht.ptr_table (r &&& hashmask ht.hashpower) with
    | [] => rand_obj_loop ht rs
    | o :: _ => some o

/-- create_concurrent_chained_hashtable: all buckets empty, n_obj = 0. -/
def emptyHT (hp : Nat) : hashtable_t := ⟨hp, fun _ => [], 0⟩

/-- One hash-table mutation. -/
inductive HtOp where
  | ins : CacheObj → HtOp
  | del : Nat → HtOp

/-- Apply one mutation, returning the new table and the detached node (if
any). -/
def applyOp (hv : Nat → Nat) (ht : hashtable_t) : HtOp → hashtable_t × Option CacheObj
  | HtOp.ins o => ((ht_insert hv ht o).2, (ht_insert hv ht o).1)
  | HtOp.del k => ((ht_delete hv ht k).2, (ht_delete hv ht k).1)

/-- Run a sequence of mutations, collecting every detached node returned. -/
def runOps (hv : Nat → Nat) (ht : hashtable_t) : List HtOp → hashtable_t × List CacheObj
  | [] => (ht, [])
  | op :: ops =>
    let r := applyOp hv ht op
    let rest := runOps hv r.1 ops
    (rest.1, r.2.toList ++ rest.2)

/-- Every node linked in the table has in_cache = false. -/
def AllNotInCache (ht : hashtable_t) : Prop :=
  ∀ b, ∀ o ∈ ht.ptr_table b, o.in_cache = false

/-- Number of nodes with key k in a chain. -/
def chainCount (chain : Chain) (k : Nat) : Nat :=
  chain.countP (fun o => o.obj_id == k)

/-!
The SLRU policy (SLRU.c).  The LRU primitive it composes (LRU.c,
cache_struct_init, cache_evict_LRU) is not among the given sources, so the
tier type and its five operations are modelled from the spec, section 4.3;
everything SLRU_* follows SLRU.c.  The TTL machinery is out of scope beyond a
boolean expired signal (spec sections 1 and 4.3), modelled as a per-request
flag exp: a check on a resident key reports Expired exactly when the request
carries exp = true.  The C while loops are given explicit fuel; a none result
means the loop (or an eviction from an empty tier, which the C code cannot
survive) did not finish within the fuel.
-/

/-- A tier resident: object id and size. -/
structure cobj where
  obj_id : Nat
  obj_size : Nat
deriving DecidableEq, Repr

/-- A request_t as SLRU consumes it. -/
structure req_t where
  obj_id : Nat
  obj_size : Nat
  exp : Bool
deriving DecidableEq, Repr

/-- Modelled from the spec: one LRU tier with byte budget cache_size, current
usage occupied_size and the recency list q (head = MRU end, last = LRU
end). -/
structure lru_t where
  cache_size : Nat
  occupied_size : Nat
  q : List cobj
deriving DecidableEq, Repr

/-- check/get result codes (cache_ck_res_e). -/
inductive ck_res where
  | hit
  | miss
  | expired
deriving DecidableEq, Repr

/-- Whether a tier's recency list holds the key. -/
def tierHas (t : lru_t) (k : Nat) : Bool := t.q.any (fun o => o.obj_id == k)

/-- First resident with the given key. -/
def findObj : List cobj → Nat → Option cobj
  | [], _ => none
  | o :: rest, k => if o.obj_id = k then some o else findObj rest k

/-- Remove the first resident with the given key. -/
def removeFirst : List cobj → Nat → List cobj
  | [], _ => []
  | o :: rest, k => if o.obj_id = k then rest else o :: removeFirst rest k

/-- Modelled from the spec: LRU check.  Hit moves the node to the MRU end when
update_cache is set; a resident key whose request signals expiry reports
Expired; an absent key reports Miss. -/
def LRU_check (update : Bool) (req : req_t) (lru : lru_t) : ck_res × lru_t :=
  if tierHas lru req.obj_id then
    if req.exp then (ck_res.expired, lru)
    else
      (ck_res.hit,
        if update then
          match findObj lru.q req.obj_id with
          | none => lru
          | some o => ⟨lru.cache_size, lru.occupied_size, o :: removeFirst lru.q req.obj_id⟩
        else lru)
  else (ck_res.miss, lru)

/-- Modelled from the spec: LRU insert places the object at the MRU end and
adds obj_size + per_obj_overhead to occupied_size. -/
def LRU_insert (oh : Nat) (o : cobj) (lru : lru_t) : lru_t :=
  ⟨lru.cache_size, lru.occupied_size + o.obj_size + oh, o :: lru.q⟩

/-- Modelled from the spec: LRU evict removes the LRU-end node and subtracts
its obj_size + per_obj_overhead from occupied_size.  On an empty tier there is
no node to evict (the C code would dereference NULL). -/
def LRU_evict (oh : Nat) (lru : lru_t) : Option cobj × lru_t :=
  match lru.q.getLast? with
  | none => (none, lru)
  | some e =>
    (some e, ⟨lru.cache_size, lru.occupied_size - (e.obj_size + oh), lru.q.dropLast⟩)

/-- Modelled from the spec: LRU remove unlinks the first node with the key and
updates occupied_size; absence is a non-fatal warning. -/
def LRU_remove (oh : Nat) (k : Nat) (lru : lru_t) : lru_t :=
  match findObj lru.q k with
  | none => lru
  | some o =>
    ⟨lru.cache_size, lru.occupied_size - (o.obj_size + oh), removeFirst lru.q k⟩

/-- Modelled from the spec: a fresh tier is empty. -/
def LRU_init (cap : Nat) : lru_t := ⟨cap, 0, []⟩

/-- The SLRU cache: cache->cache_size as set from the requested total by
cache_struct_init, and the LRUs array (index 0 = coldest tier). -/
structure slru_t where
  cache_size : Nat
  tiers : List lru_t
deriving DecidableEq, Repr

/-- SLRU_init: cache->cache_size keeps the requested total; each of the n_seg
tiers is an empty LRU of capacity cache_size / n_seg (integer division). -/
def SLRU_init (cache_size n_seg : Nat) : slru_t :=
  ⟨cache_size, List.replicate n_seg (LRU_init (cache_size / n_seg))⟩

mutual

/-- SLRU_cool from SLRU.c: evict the LRU-end node of tier i; if i = 0 the node
is discarded, otherwise tier i-1 is cooled until it fits the node, which is
then inserted at tier i-1's MRU end.  The first argument after oh is fuel for
the recursion and the while loop. -/
def SLRU_cool (oh : Nat) : Nat → Nat → List lru_t → Option (List lru_t)
  | 0, _, _ => none
  | fuel + 1, i, ts =>
    match ts[i]? with
    | none => none
    | some ti =>
      match LRU_evict oh ti with
      | (none, _) => none
      | (some e, ti2) =>
        let ts1 := ts.set i ti2
        if i = 0 then some ts1
        else
          match coolUntilFit oh fuel (i - 1) e.obj_size ts1 with
          | none => none
          | some ts2 =>
            match ts2[i - 1]? with
            | none => none
            | some tj => some (ts2.set (i - 1) (LRU_insert oh e tj))

/-- The while loops of SLRU.c that cool tier j until it can fit sz more bytes:
while occupied_size + sz + per_obj_overhead > cache_size, SLRU_cool(j). -/
def coolUntilFit (oh : Nat) : Nat → Nat → Nat → List lru_t → Option (List lru_t)
  | 0, _, _, _ => none
  | fuel + 1, j, sz, ts =>
    match ts[j]? with
    | none => none
    | some tj =>
      if tj.occupied_size + sz + oh > tj.cache_size then
        match SLRU_cool oh fuel j ts with
        | none => none
        | some ts2 => coolUntilFit oh fuel j sz ts2
      else some ts

end

/-- The for loop of SLRU_check, scanning tiers upward from index i with rem
tiers left to visit (rem is ts.length - i at every call from SLRU_check).  On
Hit below the top tier the object is promoted: removed from tier i, tier i+1
cooled until it fits, then inserted at tier i+1's MRU end.  Expired returns
immediately; Miss moves to the next tier; the loop falling off the end returns
Miss.  cf is the fuel handed to the cooling loops. -/
def SLRU_checkFrom (oh cf : Nat) (update : Bool) (req : req_t) :
    Nat → Nat → List lru_t → Option (ck_res × List lru_t)
  | 0, _, ts => some (ck_res.miss, ts)
  | rem + 1, i, ts =>
    match ts[i]? with
    | none => some (ck_res.miss, ts)
    | some ti =>
      let r := LRU_check update req ti
      let ts1 := ts.set i r.2
      match r.1 with
      | ck_res.expired => some (ck_res.expired, ts1)
      | ck_res.miss => SLRU_checkFrom oh cf update req rem (i + 1) ts1
      | ck_res.hit =>
        if i = ts1.length - 1 then some (ck_res.hit, ts1)
        else
          let ts2 := ts1.set i (LRU_remove oh req.obj_id r.2)
          match coolUntilFit oh cf (i + 1) req.obj_size ts2 with
          | none => none
          | some ts3 =>
            match ts3[i + 1]? with
            | none => none
            | some tn =>
              some (ck_res.hit, ts3.set (i + 1) (LRU_insert oh ⟨req.obj_id, req.obj_size⟩ tn))

/-- SLRU_check from SLRU.c. -/
def SLRU_check (oh cf : Nat) (update : Bool) (req : req_t) (s : slru_t) :
    Option (ck_res × slru_t) :=
  match SLRU_checkFrom oh cf update req s.tiers.length 0 s.tiers with
  | none => none
  | some (r, ts) => some (r, ⟨s.cache_size, ts⟩)

/-- The while loop at the end of SLRU_insert: evict from tier 0 (discarding
the evictee) while it cannot fit sz more bytes.  Fuel is the recursion bound;
SLRU_insert passes the tier's population, which the loop can never exceed. -/
def evictLoopF (oh sz : Nat) : Nat → lru_t → Option lru_t
  | 0, lru => if lru.occupied_size + sz + oh ≤ lru.cache_size then some lru else none
  | fuel + 1, lru =>
    if lru.occupied_size + sz + oh ≤ lru.cache_size then some lru
    else
      match LRU_evict oh lru with
      | (none, _) => none
      | (some _, lru2) => evictLoopF oh sz fuel lru2

/-- The for loop of SLRU_insert, looking for the lowest tier from index i
(with rem tiers left) that fits the object; when every tier is full, tier 0 is
evicted from until the object fits and the object is inserted there. -/
def SLRU_insertFrom (oh : Nat) (req : req_t) :
    Nat → Nat → List lru_t → Option (List lru_t)
  | 0, _, ts =>
    match ts[0]? with
    | none => none
    | some t0 =>
      match evictLoopF oh req.obj_size t0.q.length t0 with
      | none => none
      | some t02 => some (ts.set 0 (LRU_insert oh ⟨req.obj_id, req.obj_size⟩ t02))
  | rem + 1, i, ts =>
    match ts[i]? with
    | none => none
    | some ti =>
      if ti.occupied_size + req.obj_size + oh ≤ ti.cache_size then
        some (ts.set i (LRU_insert oh ⟨req.obj_id, req.obj_size⟩ ti))
      else SLRU_insertFrom oh req rem (i + 1) ts

/-- SLRU_insert from SLRU.c. -/
def SLRU_insert (oh : Nat) (req : req_t) (s : slru_t) : Option slru_t :=
  match SLRU_insertFrom oh req s.tiers.length 0 s.tiers with
  | none => none
  | some ts => some ⟨s.cache_size, ts⟩

/-- SLRU_get from SLRU.c: check with update; on Miss or Expired, insert unless
req.obj_size + per_obj_overhead exceeds cache->cache_size, and return the
check's result either way. -/
def SLRU_get (oh cf : Nat) (req : req_t) (s : slru_t) : Option (ck_res × slru_t) :=
  match SLRU_check oh cf true req s with
  | none => none
  | some (r, s1) =>
    if r = ck_res.miss ∨ r = ck_res.expired then
      if req.obj_size + oh > s1.cache_size then some (r, s1)
      else
        match SLRU_insert oh req s1 with
        | none => none
        | some s2 => some (r, s2)
    else some (r, s1)

/-- Sum of tier capacities (the spec's total_capacity). -/
def totalCapacity (ts : List lru_t) : Nat := (ts.map (fun t => t.cache_size)).sum

/-- Index of the first tier whose recency list holds the key. -/
def findTier (k : Nat) : List lru_t → Option Nat
  | [] => none
  | t :: ts => if tierHas t k then some 0 else (findTier k ts).map (· + 1)

/-- Number of residents with the given key in one tier. -/
def tierCount (t : lru_t) (k : Nat) : Nat := t.q.countP (fun o => o.obj_id == k)

/-- The accounting invariant of a tier (spec section 3, invariant 3):
occupied_size is the sum of resident sizes plus overhead. -/
def lru_wf (oh : Nat) (lru : lru_t) : Prop :=
  lru.occupied_size = (lru.q.map (fun o => o.obj_size + oh)).sum

/-- No tier of the list holds the key. -/
def noneHas (ts : List lru_t) (k : Nat) : Prop := ∀ t ∈ ts, tierHas t k = false

/-! ### Chain-level lemmas for the hash table -/

theorem chainFind_chainInsert (obj : CacheObj) :
    ∀ chain : Chain,
      chainFind (chainInsert obj chain).2 obj.obj_id = some { obj with in_cache := false } := by
  intro chain
  induction chain with
  | nil => simp [chainInsert, chainFind]
  | cons o rest ih =>
    by_cases h : o.obj_id = obj.obj_id
    · simp [chainInsert, chainFind, h]
    · simp [chainInsert, chainFind, h, ih]

theorem chainInsert_of_not_mem (obj : CacheObj) :
    ∀ chain : Chain, (∀ o ∈ chain, o.obj_id ≠ obj.obj_id) →
      chainInsert obj chain = (none, chain ++ [{ obj with in_cache := false }]) := by
  intro chain
  induction chain with
  | nil => intro _; simp [chainInsert]
  | cons o rest ih =>
    intro h
    have ho : o.obj_id ≠ obj.obj_id := h o (List.mem_cons_self o rest)
    have hrest : ∀ x ∈ rest, x.obj_id ≠ obj.obj_id := fun x hx => h x (List.mem_cons_of_mem o hx)
    simp [chainInsert, ho, ih hrest]

theorem chainInsert_of_found (obj old : CacheObj) (suf : Chain) :
    ∀ pre : Chain, (∀ o ∈ pre, o.obj_id ≠ obj.obj_id) → old.obj_id = obj.obj_id →
      chainInsert obj (pre ++ old :: suf) =
        (some { old with in_cache := false },
         pre ++ { obj with in_cache := false } :: suf) := by
  intro pre
  induction pre with
  | nil => intro _ hold; simp [chainInsert, hold]
  | cons o rest ih =>
    intro h hold
    have ho : o.obj_id ≠ obj.obj_id := h o (List.mem_cons_self o rest)
    have hrest : ∀ x ∈ rest, x.obj_id ≠ obj.obj_id := fun x hx => h x (List.mem_cons_of_mem o hx)
    simp [chainInsert, ho, ih hrest hold]

theorem chainDelete_of_find_none :
    ∀ (chain : Chain) (k : Nat), chainFind chain k = none →
      chainDelete chain k = (none, chain) := by
  intro chain
  induction chain with
  | nil => intro k _; simp [chainDelete]
  | cons o rest ih =>
    intro k h
    by_cases ho : o.obj_id = k
    · simp [chainFind, ho] at h
    · simp [chainFind, ho] at h
      simp [chainDelete, ho, ih k h]

theorem chainDelete_fst_none :
    ∀ (chain : Chain) (k : Nat), (chainDelete chain k).1 = none →
      chainFind chain k = none := by
  intro chain
  induction chain with
  | nil => intro k _; simp [chainFind]
  | cons o rest ih =>
    intro k h
    by_cases ho : o.obj_id = k
    · simp [chainDelete, ho] at h
    · simp [chainDelete, ho] at h
      simp [chainFind, ho, ih k h]

theorem chainFind_eq_none_of_all :
    ∀ (chain : Chain) (k : Nat), (∀ o ∈ chain, o.obj_id ≠ k) → chainFind chain k = none := by
  intro chain
  induction chain with
  | nil => intro k _; simp [chainFind]
  | cons o rest ih =>
    intro k h
    have ho : o.obj_id ≠ k := h o (List.mem_cons_self o rest)
    have hrest : ∀ x ∈ rest, x.obj_id ≠ k := fun x hx => h x (List.mem_cons_of_mem o hx)
    simp [chainFind, ho, ih k hrest]

theorem chainFind_chainDelete_of_count_le_one :
    ∀ (chain : Chain) (k : Nat), chainCount chain k ≤ 1 →
      chainFind (chainDelete chain k).2 k = none := by
  intro chain
  induction chain with
  | nil => intro k _; simp [chainDelete, chainFind]
  | cons o rest ih =>
    intro k h
    by_cases ho : o.obj_id = k
    · simp [chainCount, List.countP_cons, ho] at h
      exact by simp [chainDelete, ho, chainFind_eq_none_of_all rest k h]
    · simp [chainCount, List.countP_cons, ho] at h
      simp [chainDelete, chainFind, ho]
      have hcount : chainCount rest k ≤ 1 := by
        simpa [chainCount] using h
      exact ih k hcount

theorem chainInsert_all_not_in_cache (newObj : CacheObj) :
    ∀ chain : Chain, (∀ o ∈ chain, o.in_cache = false) →
      ∀ o ∈ (chainInsert newObj chain).2, o.in_cache = false := by
  intro chain
  induction chain with
  | nil => intro _ o ho; simp [chainInsert] at ho; simp [ho]
  | cons x rest ih =>
    intro h o ho
    have hx : x.in_cache = false := h x (List.mem_cons_self x rest)
    have hrest : ∀ y ∈ rest, y.in_cache = false := fun y hy => h y (List.mem_cons_of_mem x hy)
    by_cases hid : x.obj_id = newObj.obj_id
    · simp [chainInsert, hid] at ho
      rcases ho with ho | ho
      · simp [ho]
      · exact hrest o ho
    · simp [chainInsert, hid] at ho
      rcases ho with ho | ho
      · simpa [ho] using hx
      · exact ih hrest o ho

theorem chainInsert_fst_not_in_cache (newObj : CacheObj) :
    ∀ (chain : Chain) (r : CacheObj), (chainInsert newObj chain).1 = some r →
      r.in_cache = false := by
  intro chain
  induction chain with
  | nil => intro r h; simp [chainInsert] at h
  | cons x rest ih =>
    intro r h
    by_cases hid : x.obj_id = newObj.obj_id
    · simp [chainInsert, hid] at h
      simp [← h]
    · simp [chainInsert, hid] at h
      exact ih r h

theorem chainDelete_mem (k : Nat) :
    ∀ chain : Chain, ∀ o ∈ (chainDelete chain k).2, o ∈ chain := by
  intro chain
  induction chain with
  | nil => intro o ho; simp [chainDelete] at ho
  | cons x rest ih =>
    intro o ho
    by_cases hid : x.obj_id = k
    · simp [chainDelete, hid] at ho
      exact List.mem_cons_of_mem x ho
    · simp [chainDelete, hid] at ho
      rcases ho with ho | ho
      · simp [ho]
      · exact List.mem_cons_of_mem x (ih o ho)

theorem chainDelete_fst_not_in_cache (k : Nat) :
    ∀ (chain : Chain) (r : CacheObj), (chainDelete chain k).1 = some r →
      r.in_cache = false := by
  intro chain
  induction chain with
  | nil => intro r h; simp [chainDelete] at h
  | cons x rest ih =>
    intro r h
    by_cases hid : x.obj_id = k
    · simp [chainDelete, hid] at h
      simp [← h]
    · simp [chainDelete, hid] at h
      exact ih r h

/-! ### Table-level helper lemmas -/

theorem ht_insert_preserves_all_not_in_cache (hv : Nat → Nat) (ht : hashtable_t)
    (obj : CacheObj) (h : AllNotInCache ht) :
    AllNotInCache (ht_insert hv ht obj).2 := by
  intro b o ho
  simp only [ht_insert] at ho
  by_cases hb : b = hashBucket hv ht.hashpower obj.obj_id
  · subst hb
    rw [Function.update_same] at ho
    exact chainInsert_all_not_in_cache obj _ (h _) o ho
  · rw [Function.update_noteq hb] at ho
    exact h b o ho

theorem ht_delete_preserves_all_not_in_cache (hv : Nat → Nat) (ht : hashtable_t)
    (k : Nat) (h : AllNotInCache ht) :
    AllNotInCache (ht_delete hv ht k).2 := by
  intro b o ho
  simp only [ht_delete] at ho
  rcases hd : chainDelete (ht.ptr_table (hashBucket hv ht.hashpower k)) k with ⟨r, chain2⟩
  rw [hd] at ho
  cases r with
  | none => exact h b o ho
  | some x =>
    simp only at ho
    by_cases hb : b = hashBucket hv ht.hashpower k
    · subst hb
      rw [Function.update_same] at ho
      have hmem : o ∈ (chainDelete (ht.ptr_table (hashBucket hv ht.hashpower k)) k).2 := by
        rw [hd]; exact ho
      exact h _ o (chainDelete_mem k _ o hmem)
    · rw [Function.update_noteq hb] at ho
      exact h b o ho

theorem applyOp_not_in_cache (hv : Nat → Nat) (ht : hashtable_t) (op : HtOp)
    (h : AllNotInCache ht) :
    AllNotInCache (applyOp hv ht op).1 ∧
      (∀ r, (applyOp hv ht op).2 = some r → r.in_cache = false) := by
  cases op with
  | ins o =>
    refine ⟨ht_insert_preserves_all_not_in_cache hv ht o h, ?_⟩
    intro r hr
    simp only [applyOp, ht_insert] at hr
    exact chainInsert_fst_not_in_cache o _ r hr
  | del k =>
    refine ⟨ht_delete_preserves_all_not_in_cache hv ht k h, ?_⟩
    intro r hr
    simp only [applyOp, ht_delete] at hr
    rcases hd : chainDelete (ht.ptr_table (hashBucket hv ht.hashpower k)) k with ⟨r0, chain2⟩
    rw [hd] at hr
    cases r0 with
    | none => simp at hr
    | some x =>
      simp only at hr
      have : (chainDelete (ht.ptr_table (hashBucket hv ht.hashpower k)) k).1 = some r := by
        rw [hd]; simpa using hr
      exact chainDelete_fst_not_in_cache k _ r this

/-! ### Claim theorems: hash table -/

/-- C7: find after insert returns the inserted node (the same node, with its
in_cache flag cleared by the insert), and find after delete returns none
whenever the key occurs at most once in its bucket chain (the table invariant;
chains built by these operations never hold duplicates). -/
theorem C7_find_after_insert_and_delete (hv : Nat → Nat) (ht : hashtable_t)
    (obj : CacheObj) (k : Nat)
    (hone : chainCount (ht.ptr_table (hashBucket hv ht.hashpower k)) k ≤ 1) :
    ht_find hv (ht_insert hv ht obj).2 obj.obj_id = some { obj with in_cache := false } ∧
    ht_find hv (ht_delete hv ht k).2 k = none := by
  constructor
  · simp only [ht_insert, ht_find]
    rw [Function.update_same]
    exact chainFind_chainInsert obj _
  · rcases hd : chainDelete (ht.ptr_table (hashBucket hv ht.hashpower k)) k with ⟨r, chain2⟩
    cases r with
    | none =>
      have hfind : chainFind (ht.ptr_table (hashBucket hv ht.hashpower k)) k = none :=
        chainDelete_fst_none _ k (by rw [hd])
      simp [ht_delete, ht_find, hd, hfind]
    | some o =>
      have hafter := chainFind_chainDelete_of_count_le_one _ k hone
      rw [hd] at hafter
      simp only [ht_delete, hd, ht_find]
      rw [Function.update_same]
      exact hafter

/-- C7 witness: a concrete table where both conclusions evaluate. -/
theorem C7_find_after_insert_and_delete_witness :
    ht_find (fun n => n) (ht_insert (fun n => n) (emptyHT 2) ⟨7, 3, true⟩).2 3 =
        some ⟨7, 3, false⟩ ∧
    ht_find (fun n => n) (ht_delete (fun n => n) (emptyHT 2) 3).2 3 = none :=
  C7_find_after_insert_and_delete (fun n => n) (emptyHT 2) ⟨7, 3, true⟩ 3 (by decide)

/-- C9: deleting an absent key returns none and leaves the table exactly as it
was: same n_obj, same bucket heads, every node's chain position and in_cache
flag untouched. -/
theorem C9_delete_absent_is_noop (hv : Nat → Nat) (ht : hashtable_t) (k : Nat)
    (h : ht_find hv ht k = none) :
    ht_delete hv ht k = (none, ht) := by
  have hd := chainDelete_of_find_none (ht.ptr_table (hashBucket hv ht.hashpower k)) k h
  simp [ht_delete, hd]

/-- C9 witness: deleting from a table that holds only key 5 at another id. -/
theorem C9_delete_absent_is_noop_witness :
    ht_delete (fun n => n) ⟨1, fun b => if b = 1 then [⟨9, 5, false⟩] else [], 1⟩ 2 =
      (none, ⟨1, fun b => if b = 1 then [⟨9, 5, false⟩] else [], 1⟩) :=
  C9_delete_absent_is_noop (fun n => n)
    ⟨1, fun b => if b = 1 then [⟨9, 5, false⟩] else [], 1⟩ 2 (by decide)

/-- C10: hash-table operations never set in_cache; starting from a table whose
nodes all have in_cache = false (e.g. a fresh one), any sequence of inserts
and deletes leaves every linked node with in_cache = false and every detached
node it returned with in_cache = false. -/
theorem C10_in_cache_never_set (hv : Nat → Nat) (ht : hashtable_t) (ops : List HtOp)
    (h : AllNotInCache ht) :
    AllNotInCache (runOps hv ht ops).1 ∧
      ∀ o ∈ (runOps hv ht ops).2, o.in_cache = false := by
  induction ops generalizing ht with
  | nil =>
    refine ⟨by simpa [runOps] using h, ?_⟩
    intro o ho
    simp [runOps] at ho
  | cons op rest ih =>
    obtain ⟨hstate, hret⟩ := applyOp_not_in_cache hv ht op h
    obtain ⟨ih1, ih2⟩ := ih (applyOp hv ht op).1 hstate
    refine ⟨by simpa [runOps] using ih1, ?_⟩
    intro o ho
    simp only [runOps, List.mem_append] at ho
    rcases ho with ho | ho
    · rcases hr : (applyOp hv ht op).2 with _ | x
      · rw [hr] at ho; simp at ho
      · rw [hr] at ho
        simp at ho
        rw [ho]
        exact hret x hr
    · exact ih2 o ho

/-- C10 witness: a concrete run of insert, overwrite-insert and delete from
the empty table. -/
theorem C10_in_cache_never_set_witness :
    AllNotInCache (runOps (fun n => n) (emptyHT 2)
        [HtOp.ins ⟨1, 5, true⟩, HtOp.ins ⟨2, 5, true⟩, HtOp.del 5]).1 ∧
      ∀ o ∈ (runOps (fun n => n) (emptyHT 2)
        [HtOp.ins ⟨1, 5, true⟩, HtOp.ins ⟨2, 5, true⟩, HtOp.del 5]).2,
        o.in_cache = false :=
  C10_in_cache_never_set (fun n => n) (emptyHT 2)
    [HtOp.ins ⟨1, 5, true⟩, HtOp.ins ⟨2, 5, true⟩, HtOp.del 5]
    (fun _ o ho => absurd ho (List.not_mem_nil o))

/-- C1 counterexample: inserting a fresh key into a non-empty bucket does not
prepend the new node at the chain head; the chain keeps its old head and the
new node is appended at the tail. -/
theorem C1_insert_prepend_cex :
    ((ht_insert (fun _ => 0) ⟨0, fun _ => [⟨1, 1, true⟩], 1⟩ ⟨2, 2, true⟩).2.ptr_table 0).head? ≠
        some ⟨2, 2, false⟩ ∧
    (ht_insert (fun _ => 0) ⟨0, fun _ => [⟨1, 1, true⟩], 1⟩ ⟨2, 2, true⟩).2.ptr_table 0 =
        [⟨1, 1, true⟩, ⟨2, 2, false⟩] := by
  constructor
  · decide
  · decide

/-- C1 (amended): on a key already present, the new node replaces the old at
its chain position (taking over its hash_next, i.e. the chain suffix), the old
node is returned detached with in_cache = false and n_obj is unchanged; on a
fresh key the new node is appended at the tail of the bucket chain (not
prepended as head), its in_cache is set to false, n_obj increments and none is
returned. -/
theorem C1_insert_replaces_or_appends (hv : Nat → Nat) (ht : hashtable_t) (obj : CacheObj) :
    ((∀ o ∈ ht.ptr_table (hashBucket hv ht.hashpower obj.obj_id), o.obj_id ≠ obj.obj_id) →
      (ht_insert hv ht obj).1 = none ∧
      (ht_insert hv ht obj).2.ptr_table (hashBucket hv ht.hashpower obj.obj_id) =
        ht.ptr_table (hashBucket hv ht.hashpower obj.obj_id) ++
          [{ obj with in_cache := false }] ∧
      (ht_insert hv ht obj).2.n_obj = ht.n_obj + 1) ∧
    (∀ pre old suf,
      ht.ptr_table (hashBucket hv ht.hashpower obj.obj_id) = pre ++ old :: suf →
      (∀ o ∈ pre, o.obj_id ≠ obj.obj_id) → old.obj_id = obj.obj_id →
      (ht_insert hv ht obj).1 = some { old with in_cache := false } ∧
      (ht_insert hv ht obj).2.ptr_table (hashBucket hv ht.hashpower obj.obj_id) =
        pre ++ { obj with in_cache := false } :: suf ∧
      (ht_insert hv ht obj).2.n_obj = ht.n_obj) := by
  constructor
  · intro h
    have hins := chainInsert_of_not_mem obj _ h
    refine ⟨?_, ?_, ?_⟩ <;>
      simp [ht_insert, hins, Function.update_same]
  · intro pre old suf hchain hpre hold
    have hins := chainInsert_of_found obj old suf pre hpre hold
    refine ⟨?_, ?_, ?_⟩ <;>
      simp [ht_insert, hchain, hins, Function.update_same]

/-- C1 witness: a fresh-key insert into a one-node bucket and a
replacing insert over a one-node bucket. -/
theorem C1_insert_replaces_or_appends_witness :
    ((ht_insert (fun _ => 0) ⟨0, fun _ => [⟨1, 1, true⟩], 1⟩ ⟨2, 2, true⟩).1 = none ∧
     (ht_insert (fun _ => 0) ⟨0, fun _ => [⟨1, 1, true⟩], 1⟩ ⟨2, 2, true⟩).2.ptr_table 0 =
       [⟨1, 1, true⟩] ++ [⟨2, 2, false⟩] ∧
     (ht_insert (fun _ => 0) ⟨0, fun _ => [⟨1, 1, true⟩], 1⟩ ⟨2, 2, true⟩).2.n_obj = 1 + 1) ∧
    ((ht_insert (fun _ => 0) ⟨0, fun _ => [⟨3, 5, true⟩], 1⟩ ⟨4, 5, true⟩).1 =
        some ⟨3, 5, false⟩ ∧
     (ht_insert (fun _ => 0) ⟨0, fun _ => [⟨3, 5, true⟩], 1⟩ ⟨4, 5, true⟩).2.ptr_table 0 =
       [] ++ ⟨4, 5, false⟩ :: [] ∧
     (ht_insert (fun _ => 0) ⟨0, fun _ => [⟨3, 5, true⟩], 1⟩ ⟨4, 5, true⟩).2.n_obj = 1) := by
  constructor
  · exact (C1_insert_replaces_or_appends (fun _ => 0)
      ⟨0, fun _ => [⟨1, 1, true⟩], 1⟩ ⟨2, 2, true⟩).1 (by decide)
  · exact (C1_insert_replaces_or_appends (fun _ => 0)
      ⟨0, fun _ => [⟨3, 5, true⟩], 1⟩ ⟨4, 5, true⟩).2 [] ⟨3, 5, true⟩ [] rfl
      (by simp) rfl

/-- C6: the code gives rand_obj no retry bound; on an empty table the probe
loop never exits, whatever finite stream of random draws it consumes, so it
never returns at all (and in particular never returns none after a bounded
number of probes, contrary to the claim). -/
theorem C6_rand_obj_empty_never_returns (ht : hashtable_t)
    (h : ∀ b, ht.ptr_table b = []) :
    ∀ draws : List Nat, rand_obj_loop ht draws = none := by
  intro draws
  induction draws with
  | nil => rfl
  | cons r rs ih => simp [rand_obj_loop, h, ih]

/-- C6 witness: a fresh table with five probes, all still looping. -/
theorem C6_rand_obj_empty_never_returns_witness :
    rand_obj_loop (emptyHT 3) [0, 1, 2, 3, 4] = none :=
  C6_rand_obj_empty_never_returns (emptyHT 3) (fun _ => rfl) [0, 1, 2, 3, 4]

/-! ### Basic lemmas about tiers and tier lists -/

theorem list_set_self {α : Type} : ∀ (ts : List α) (i : Nat) (a : α),
    ts[i]? = some a → ts.set i a = ts := by
  intro ts
  induction ts with
  | nil => intro i a h; simp at h
  | cons x rest ih =>
    intro i a h
    cases i with
    | zero => simp at h; simp [h]
    | succ n =>
      simp at h
      simp [List.set_cons_succ, ih n a h]

theorem tierHas_false_of_all (t : lru_t) (k : Nat)
    (h : ∀ o ∈ t.q, o.obj_id ≠ k) : tierHas t k = false := by
  simp only [tierHas, List.any_eq_false]
  intro o ho
  simpa using h o ho

theorem tierHas_false_all (t : lru_t) (k : Nat)
    (h : tierHas t k = false) : ∀ o ∈ t.q, o.obj_id ≠ k := by
  simp only [tierHas, List.any_eq_false] at h
  intro o ho
  simpa using h o ho

theorem findObj_some_id : ∀ (q : List cobj) (k : Nat) (o : cobj),
    findObj q k = some o → o.obj_id = k := by
  intro q
  induction q with
  | nil => intro k o h; simp [findObj] at h
  | cons x rest ih =>
    intro k o h
    by_cases hx : x.obj_id = k
    · simp [findObj, hx] at h
      rw [← h]; exact hx
    · simp [findObj, hx] at h
      exact ih k o h

theorem findObj_none_of_all : ∀ (q : List cobj) (k : Nat),
    (∀ o ∈ q, o.obj_id ≠ k) → findObj q k = none := by
  intro q
  induction q with
  | nil => intro k _; simp [findObj]
  | cons x rest ih =>
    intro k h
    have hx : x.obj_id ≠ k := h x (List.mem_cons_self x rest)
    simp [findObj, hx, ih k (fun o ho => h o (List.mem_cons_of_mem x ho))]

theorem findObj_isSome_of_has (t : lru_t) (k : Nat) (h : tierHas t k = true) :
    ∃ o, findObj t.q k = some o := by
  cases hf : findObj t.q k with
  | some o => exact ⟨o, rfl⟩
  | none =>
    exfalso
    simp only [tierHas, List.any_eq_true] at h
    obtain ⟨o, ho, hid⟩ := h
    revert hf ho hid
    induction t.q with
    | nil => intro hf ho _; simp at ho
    | cons x rest ih =>
      intro hf ho hid
      by_cases hx : x.obj_id = k
      · simp [findObj, hx] at hf
      · simp [findObj, hx] at hf
        rcases List.mem_cons.1 ho with rfl | ho2
        · exact hx (by simpa using hid)
        · exact ih hf ho2 hid

theorem removeFirst_countP_zero : ∀ (q : List cobj) (k : Nat),
    q.countP (fun o => o.obj_id == k) = 1 →
    (removeFirst q k).countP (fun o => o.obj_id == k) = 0 := by
  intro q
  induction q with
  | nil => intro k h; simp at h
  | cons x rest ih =>
    intro k h
    by_cases hx : x.obj_id = k
    · rw [List.countP_cons] at h
      simp [hx] at h
      simpa [removeFirst, hx] using h
    · rw [List.countP_cons] at h
      simp [hx] at h
      simp only [removeFirst, if_neg hx]
      rw [List.countP_cons]
      simp [hx, ih k h]

theorem removeFirst_mem : ∀ (q : List cobj) (k : Nat), ∀ o ∈ removeFirst q k, o ∈ q := by
  intro q
  induction q with
  | nil => intro k o ho; simp [removeFirst] at ho
  | cons x rest ih =>
    intro k o ho
    by_cases hx : x.obj_id = k
    · simp only [removeFirst, if_pos hx] at ho
      exact List.mem_cons_of_mem x ho
    · simp only [removeFirst, if_neg hx] at ho
      rcases List.mem_cons.1 ho with rfl | ho2
      · exact List.mem_cons_self o rest
      · exact List.mem_cons_of_mem x (ih k o ho2)

theorem findTier_eq_some (k : Nat) : ∀ (ts : List lru_t) (m : Nat) (t : lru_t),
    (∀ j u, j < m → ts[j]? = some u → tierHas u k = false) →
    ts[m]? = some t → tierHas t k = true →
    findTier k ts = some m := by
  intro ts
  induction ts with
  | nil => intro m t _ hm _; simp at hm
  | cons x rest ih =>
    intro m t hlow hm hhas
    cases m with
    | zero =>
      simp at hm
      subst hm
      simp [findTier, hhas]
    | succ n =>
      have hx : tierHas x k = false := hlow 0 x (Nat.succ_pos n) (by simp)
      simp at hm
      have := ih n t (fun j u hj hju => hlow (j + 1) u (by omega) (by simpa using hju)) hm hhas
      simp [findTier, hx, this]

/-! ### Lemmas about the cooling loops -/

theorem cool_untouched (oh : Nat) : ∀ fuel : Nat,
    (∀ i ts ts', SLRU_cool oh fuel i ts = some ts' →
      ts'.length = ts.length ∧ ∀ m, i < m → ts'[m]? = ts[m]?) ∧
    (∀ j sz ts ts', coolUntilFit oh fuel j sz ts = some ts' →
      ts'.length = ts.length ∧ ∀ m, j < m → ts'[m]? = ts[m]?) := by
  intro fuel
  induction fuel with
  | zero =>
    constructor
    · intro i ts ts' h; simp [SLRU_cool] at h
    · intro j sz ts ts' h; simp [coolUntilFit] at h
  | succ f ih =>
    obtain ⟨ihc, ihu⟩ := ih
    constructor
    · intro i ts ts' h
      rw [SLRU_cool] at h
      cases hti : ts[i]? with
      | none => rw [hti] at h; simp at h
      | some ti =>
        rw [hti] at h
        simp only at h
        rcases hev : LRU_evict oh ti with ⟨eo, ti2⟩
        rw [hev] at h
        cases eo with
        | none => simp at h
        | some e =>
          simp only at h
          by_cases hi : i = 0
          · subst hi
            simp at h
            subst h
            refine ⟨by simp, ?_⟩
            intro m hm
            exact List.getElem?_set_ne (by omega)
          · rw [if_neg hi] at h
            cases hcuf : coolUntilFit oh f (i - 1) e.obj_size (ts.set i ti2) with
            | none => rw [hcuf] at h; simp at h
            | some ts2 =>
              rw [hcuf] at h
              simp only at h
              cases hlk : ts2[i - 1]? with
              | none => rw [hlk] at h; simp at h
              | some tj =>
                rw [hlk] at h
                simp only at h
                have hts' : ts' = ts2.set (i - 1) (LRU_insert oh e tj) := by
                  injection h with h2
                  exact h2.symm
                subst hts'
                obtain ⟨hlen2, hun2⟩ := ihu (i - 1) e.obj_size (ts.set i ti2) ts2 hcuf
                refine ⟨by simp [hlen2], ?_⟩
                intro m hm
                rw [List.getElem?_set_ne (by omega)]
                rw [hun2 m (by omega)]
                exact List.getElem?_set_ne (by omega)
    · intro j sz ts ts' h
      rw [coolUntilFit] at h
      cases htj : ts[j]? with
      | none => rw [htj] at h; simp at h
      | some tj =>
        rw [htj] at h
        simp only at h
        by_cases hc : tj.occupied_size + sz + oh > tj.cache_size
        · rw [if_pos hc] at h
          cases hcool : SLRU_cool oh f j ts with
          | none => rw [hcool] at h; simp at h
          | some ts2 =>
            rw [hcool] at h
            simp only at h
            obtain ⟨hl1, hu1⟩ := ihc j ts ts2 hcool
            obtain ⟨hl2, hu2⟩ := ihu j sz ts2 ts' h
            refine ⟨by omega, ?_⟩
            intro m hm
            rw [hu2 m hm, hu1 m hm]
        · rw [if_neg hc] at h
          have hts' : ts' = ts := by
            injection h with h2
            exact h2.symm
          subst hts'
          exact ⟨rfl, fun m _ => rfl⟩

theorem cool_noneHas (oh k : Nat) : ∀ fuel : Nat,
    (∀ i ts ts', SLRU_cool oh fuel i ts = some ts' → noneHas ts k → noneHas ts' k) ∧
    (∀ j sz ts ts', coolUntilFit oh fuel j sz ts = some ts' → noneHas ts k → noneHas ts' k) := by
  intro fuel
  induction fuel with
  | zero =>
    constructor
    · intro i ts ts' h; simp [SLRU_cool] at h
    · intro j sz ts ts' h; simp [coolUntilFit] at h
  | succ f ih =>
    obtain ⟨ihc, ihu⟩ := ih
    constructor
    · intro i ts ts' h hnone
      rw [SLRU_cool] at h
      cases hti : ts[i]? with
      | none => rw [hti] at h; simp at h
      | some ti =>
        rw [hti] at h
        simp only at h
        rcases hev : LRU_evict oh ti with ⟨eo, ti2⟩
        rw [hev] at h
        cases eo with
        | none => simp at h
        | some e =>
          simp only at h
          have hti_mem : ti ∈ ts := List.getElem?_mem hti
          have hti_false : tierHas ti k = false := hnone ti hti_mem
          have hev_q : ti2.q = ti.q.dropLast ∧ e ∈ ti.q := by
            unfold LRU_evict at hev
            cases hlast : ti.q.getLast? with
            | none => rw [hlast] at hev; simp at hev
            | some e2 =>
              rw [hlast] at hev
              simp only [Prod.mk.injEq, Option.some.injEq] at hev
              obtain ⟨he2, hti2⟩ := hev
              refine ⟨by rw [← hti2], ?_⟩
              have : e2 ∈ ti.q := List.mem_of_getLast?_eq_some hlast
              rwa [he2] at this
          have hti2_false : tierHas ti2 k = false := by
            apply tierHas_false_of_all
            intro o ho
            rw [hev_q.1] at ho
            exact tierHas_false_all ti k hti_false o (List.dropLast_subset _ ho)
          have he_ne : e.obj_id ≠ k := tierHas_false_all ti k hti_false e hev_q.2
          have hnone1 : noneHas (ts.set i ti2) k := by
            intro t ht
            rcases List.mem_or_eq_of_mem_set ht with ht | rfl
            · exact hnone t ht
            · exact hti2_false
          by_cases hi : i = 0
          · subst hi
            simp at h
            subst h
            exact hnone1
          · rw [if_neg hi] at h
            cases hcuf : coolUntilFit oh f (i - 1) e.obj_size (ts.set i ti2) with
            | none => rw [hcuf] at h; simp at h
            | some ts2 =>
              rw [hcuf] at h
              simp only at h
              cases hlk : ts2[i - 1]? with
              | none => rw [hlk] at h; simp at h
              | some tj =>
                rw [hlk] at h
                simp only at h
                have hts' : ts' = ts2.set (i - 1) (LRU_insert oh e tj) := by
                  injection h with h2; exact h2.symm
                subst hts'
                have hnone2 : noneHas ts2 k := ihu (i - 1) e.obj_size _ ts2 hcuf hnone1
                intro t ht
                rcases List.mem_or_eq_of_mem_set ht with ht | rfl
                · exact hnone2 t ht
                · apply tierHas_false_of_all
                  intro o ho
                  simp only [LRU_insert, List.mem_cons] at ho
                  rcases ho with rfl | ho
                  · exact he_ne
                  · exact tierHas_false_all tj k (hnone2 tj (List.getElem?_mem hlk)) o ho
    · intro j sz ts ts' h hnone
      rw [coolUntilFit] at h
      cases htj : ts[j]? with
      | none => rw [htj] at h; simp at h
      | some tj =>
        rw [htj] at h
        simp only at h
        by_cases hc : tj.occupied_size + sz + oh > tj.cache_size
        · rw [if_pos hc] at h
          cases hcool : SLRU_cool oh f j ts with
          | none => rw [hcool] at h; simp at h
          | some ts2 =>
            rw [hcool] at h
            simp only at h
            exact ihu j sz ts2 ts' h (ihc j ts ts2 hcool hnone)
        · rw [if_neg hc] at h
          have hts' : ts' = ts := by
            injection h with h2; exact h2.symm
          subst hts'
          exact hnone

theorem coolUntilFit_fits (oh : Nat) : ∀ (fuel j sz : Nat) (ts ts' : List lru_t),
    coolUntilFit oh fuel j sz ts = some ts' →
    ∃ tj, ts'[j]? = some tj ∧ tj.occupied_size + sz + oh ≤ tj.cache_size := by
  intro fuel
  induction fuel with
  | zero => intro j sz ts ts' h; simp [coolUntilFit] at h
  | succ f ih =>
    intro j sz ts ts' h
    rw [coolUntilFit] at h
    cases htj : ts[j]? with
    | none => rw [htj] at h; simp at h
    | some tj =>
      rw [htj] at h
      simp only at h
      by_cases hc : tj.occupied_size + sz + oh > tj.cache_size
      · rw [if_pos hc] at h
        cases hcool : SLRU_cool oh f j ts with
        | none => rw [hcool] at h; simp at h
        | some ts2 =>
          rw [hcool] at h
          simp only at h
          exact ih j sz ts2 ts' h
      · rw [if_neg hc] at h
        have hts' : ts' = ts := by
          injection h with h2; exact h2.symm
        subst hts'
        exact ⟨tj, htj, by omega⟩

/-! ### Lemmas about the check scan -/

theorem checkFrom_skip (oh cf : Nat) (u : Bool) (req : req_t) :
    ∀ (m i rem : Nat) (ts : List lru_t),
      (∀ j t, i ≤ j → j < i + m → ts[j]? = some t → tierHas t req.obj_id = false) →
      i + m ≤ ts.length →
      SLRU_checkFrom oh cf u req (m + rem) i ts =
        SLRU_checkFrom oh cf u req rem (i + m) ts := by
  intro m
  induction m with
  | zero => intro i rem ts _ _; simp
  | succ n ih =>
    intro i rem ts hmiss hlen
    have hi : i < ts.length := by omega
    obtain ⟨ti, hti⟩ : ∃ t, ts[i]? = some t := by
      rw [List.getElem?_eq_getElem hi]
      exact ⟨_, rfl⟩
    have htierF : tierHas ti req.obj_id = false :=
      hmiss i ti (Nat.le_refl i) (by omega) hti
    have hstep : SLRU_checkFrom oh cf u req (n + rem + 1) i ts =
        SLRU_checkFrom oh cf u req (n + rem) (i + 1) ts := by
      rw [SLRU_checkFrom]
      rw [hti]
      simp only
      have hcheck : LRU_check u req ti = (ck_res.miss, ti) := by
        simp [LRU_check, htierF]
      rw [hcheck]
      simp only
      rw [list_set_self ts i ti hti]
    have harith : n + 1 + rem = n + rem + 1 := by omega
    rw [harith, hstep]
    have := ih (i + 1) rem ts
      (fun j t hj1 hj2 hjt => hmiss j t (by omega) (by omega) hjt) (by omega)
    rw [this]
    have harith2 : i + 1 + n = i + (n + 1) := by omega
    rw [harith2]

theorem checkFrom_hit_result (oh cf : Nat) (u : Bool) (req : req_t)
    (rem i : Nat) (ts : List lru_t) (ti : lru_t)
    (hti : ts[i]? = some ti) (hhas : tierHas ti req.obj_id = true)
    (hexp : req.exp = false) :
    ∀ r out, SLRU_checkFrom oh cf u req (rem + 1) i ts = some (r, out) →
      r = ck_res.hit := by
  intro r out h
  rw [SLRU_checkFrom] at h
  rw [hti] at h
  simp only at h
  rcases hc2 : LRU_check u req ti with ⟨rc, ti2⟩
  have hrc : rc = ck_res.hit := by
    have : (LRU_check u req ti).1 = ck_res.hit := by
      simp [LRU_check, hhas, hexp]
    rw [hc2] at this
    exact this
  rw [hc2] at h
  subst hrc
  simp only at h
  by_cases hl : i = (ts.set i ti2).length - 1
  · rw [if_pos hl] at h
    simp only [Option.some.injEq, Prod.mk.injEq] at h
    exact h.1.symm
  · rw [if_neg hl] at h
    cases hcuf : coolUntilFit oh cf (i + 1) req.obj_size
        ((ts.set i ti2).set i (LRU_remove oh req.obj_id ti2)) with
    | none => rw [hcuf] at h; simp at h
    | some ts3 =>
      rw [hcuf] at h
      simp only at h
      cases hlk : ts3[i + 1]? with
      | none => rw [hlk] at h; simp at h
      | some tn =>
        rw [hlk] at h
        simp only [Option.some.injEq, Prod.mk.injEq] at h
        exact h.1.symm

/-! ### Claim theorems: SLRU -/

/-- C5: when SLRU_cool returns on a tier i that is non-empty, whose accounting
is consistent and where every tier satisfies occupied_size ≤ capacity, tier i
ends with at least obj_size(e) + per_obj_overhead free bytes, e being the node
removed from tier i's LRU end; for i = 0 the whole effect is that eviction
(the evictee is discarded), and for i > 0 the evictee sits at the MRU end of
tier i-1 (inserted after cooling tier i-1 until it fits, so tier i-1 still
satisfies its capacity bound). -/
theorem C5_cool_frees_space (oh fuel i : Nat) (ts ts' : List lru_t)
    (ti : lru_t) (e : cobj)
    (hti : ts[i]? = some ti) (hwf : lru_wf oh ti)
    (hocc : ∀ t ∈ ts, t.occupied_size ≤ t.cache_size)
    (hlast : ti.q.getLast? = some e)
    (hcool : SLRU_cool oh fuel i ts = some ts') :
    (∃ ti2, ts'[i]? = some ti2 ∧ ti2.cache_size = ti.cache_size ∧
      ti2.occupied_size + (e.obj_size + oh) ≤ ti2.cache_size) ∧
    (i = 0 → ts' = ts.set 0
      ⟨ti.cache_size, ti.occupied_size - (e.obj_size + oh), ti.q.dropLast⟩) ∧
    (0 < i → ∃ tj, ts'[i - 1]? = some tj ∧ tj.q.head? = some e ∧
      tj.occupied_size ≤ tj.cache_size) := by
  have hilen : i < ts.length := by
    cases List.getElem?_eq_some.1 hti with
    | intro h _ => exact h
  have hge : e.obj_size + oh ≤ ti.occupied_size := by
    rw [hwf]
    exact List.le_sum_of_mem
      (List.mem_map_of_mem _ (List.mem_of_getLast?_eq_some hlast))
  have hcap : ti.occupied_size ≤ ti.cache_size := hocc ti (List.getElem?_mem hti)
  have harith : ti.occupied_size - (e.obj_size + oh) + (e.obj_size + oh) ≤
      ti.cache_size := by omega
  cases fuel with
  | zero => simp [SLRU_cool] at hcool
  | succ f =>
    rw [SLRU_cool] at hcool
    rw [hti] at hcool
    simp only at hcool
    have hev : LRU_evict oh ti =
        (some e, ⟨ti.cache_size, ti.occupied_size - (e.obj_size + oh), ti.q.dropLast⟩) := by
      unfold LRU_evict
      rw [hlast]
    rw [hev] at hcool
    simp only at hcool
    by_cases hi : i = 0
    · subst hi
      simp at hcool
      subst hcool
      refine ⟨⟨_, List.getElem?_set_self hilen, rfl, harith⟩, fun _ => rfl, ?_⟩
      intro h0
      exact absurd h0 (by omega)
    · rw [if_neg hi] at hcool
      cases hcuf : coolUntilFit oh f (i - 1) e.obj_size
          (ts.set i ⟨ti.cache_size, ti.occupied_size - (e.obj_size + oh), ti.q.dropLast⟩) with
      | none => rw [hcuf] at hcool; simp at hcool
      | some ts2 =>
        rw [hcuf] at hcool
        simp only at hcool
        cases hlk : ts2[i - 1]? with
        | none => rw [hlk] at hcool; simp at hcool
        | some tj =>
          rw [hlk] at hcool
          simp only [Option.some.injEq] at hcool
          subst hcool
          obtain ⟨hlen2, hun2⟩ := (cool_untouched oh f).2 (i - 1) e.obj_size _ ts2 hcuf
          obtain ⟨tjf, htjf, hfits⟩ := coolUntilFit_fits oh f (i - 1) e.obj_size _ ts2 hcuf
          have htjeq : tjf = tj := by
            rw [htjf] at hlk
            exact Option.some.inj hlk
          subst htjeq
          constructor
          · refine ⟨⟨ti.cache_size, ti.occupied_size - (e.obj_size + oh), ti.q.dropLast⟩,
              ?_, rfl, harith⟩
            rw [List.getElem?_set_ne (by omega)]
            rw [hun2 i (by omega)]
            exact List.getElem?_set_self hilen
          · refine ⟨fun h0 => absurd h0 hi, fun _ => ?_⟩
            refine ⟨LRU_insert oh e tjf, ?_, rfl, ?_⟩
            · apply List.getElem?_set_self
              have : i - 1 < ts2.length := by
                cases List.getElem?_eq_some.1 hlk with
                | intro h _ => exact h
              exact this
            · simp only [LRU_insert]
              omega

/-- C5 witness: cooling tier 1 of a two-tier cache whose tier 0 has room for
the evictee. -/
theorem C5_cool_frees_space_witness :
    (∃ ti2, ([⟨10, 3, [⟨3, 1⟩, ⟨1, 1⟩, ⟨2, 1⟩]⟩, ⟨10, 0, []⟩] : List lru_t)[1]? = some ti2 ∧
      ti2.cache_size = 10 ∧ ti2.occupied_size + (1 + 0) ≤ ti2.cache_size) ∧
    ((1 : Nat) = 0 → ([⟨10, 3, [⟨3, 1⟩, ⟨1, 1⟩, ⟨2, 1⟩]⟩, ⟨10, 0, []⟩] : List lru_t) =
      ([⟨10, 2, [⟨1, 1⟩, ⟨2, 1⟩]⟩, ⟨10, 1, [⟨3, 1⟩]⟩] : List lru_t).set 0
        ⟨10, 1 - (1 + 0), ([⟨3, 1⟩] : List cobj).dropLast⟩) ∧
    (0 < 1 → ∃ tj, ([⟨10, 3, [⟨3, 1⟩, ⟨1, 1⟩, ⟨2, 1⟩]⟩, ⟨10, 0, []⟩] : List lru_t)[0]? =
      some tj ∧ tj.q.head? = some ⟨3, 1⟩ ∧ tj.occupied_size ≤ tj.cache_size) :=
  C5_cool_frees_space 0 5 1 [⟨10, 2, [⟨1, 1⟩, ⟨2, 1⟩]⟩, ⟨10, 1, [⟨3, 1⟩]⟩]
    [⟨10, 3, [⟨3, 1⟩, ⟨1, 1⟩, ⟨2, 1⟩]⟩, ⟨10, 0, []⟩] ⟨10, 1, [⟨3, 1⟩]⟩ ⟨3, 1⟩
    rfl rfl (by decide) rfl rfl

/-- C8: when every tier below i misses and tier i reports the request expired,
SLRU_check returns Expired with the cache state exactly unchanged, for any
update flag and any cooling fuel; the tiers above i are entirely
unconstrained, so they are never consulted and no promotion happens. -/
theorem C8_expired_short_circuits (oh cf : Nat) (u : Bool) (req : req_t)
    (cs i : Nat) (ts : List lru_t) (ti : lru_t)
    (hmiss : ∀ j t, j < i → ts[j]? = some t → tierHas t req.obj_id = false)
    (hti : ts[i]? = some ti) (hhas : tierHas ti req.obj_id = true)
    (hexp : req.exp = true) :
    SLRU_check oh cf u req ⟨cs, ts⟩ = some (ck_res.expired, ⟨cs, ts⟩) := by
  have hilen : i < ts.length := by
    cases List.getElem?_eq_some.1 hti with
    | intro h _ => exact h
  have hmain : SLRU_checkFrom oh cf u req ts.length 0 ts = some (ck_res.expired, ts) := by
    have hskip := checkFrom_skip oh cf u req i 0 (ts.length - i) ts
      (fun j t hj1 hj2 hjt => hmiss j t (by omega) hjt) (by omega)
    have harith : i + (ts.length - i) = ts.length := by omega
    rw [harith] at hskip
    rw [hskip]
    simp only [Nat.zero_add]
    have harith2 : ts.length - i = (ts.length - i - 1) + 1 := by omega
    rw [harith2, SLRU_checkFrom]
    rw [hti]
    simp only
    have hcheck : LRU_check u req ti = (ck_res.expired, ti) := by
      simp [LRU_check, hhas, hexp]
    rw [hcheck]
    simp only
    rw [list_set_self ts i ti hti]
  simp [SLRU_check, hmain]

/-- C8 witness: an expired key in tier 0 of a two-tier cache. -/
theorem C8_expired_short_circuits_witness :
    SLRU_check 0 3 true ⟨5, 1, true⟩ ⟨20, [⟨10, 1, [⟨5, 1⟩]⟩, ⟨10, 0, []⟩]⟩ =
      some (ck_res.expired, ⟨20, [⟨10, 1, [⟨5, 1⟩]⟩, ⟨10, 0, []⟩]⟩) :=
  C8_expired_short_circuits 0 3 true ⟨5, 1, true⟩ 20 0
    [⟨10, 1, [⟨5, 1⟩]⟩, ⟨10, 0, []⟩] ⟨10, 1, [⟨5, 1⟩]⟩
    (fun j t hj _ => absurd hj (Nat.not_lt_zero j)) rfl (by decide) rfl

/-! ### Inversion helpers for get and check -/

theorem SLRU_get_hit_inv (oh cf : Nat) (req : req_t) (s s2 : slru_t)
    (h : SLRU_get oh cf req s = some (ck_res.hit, s2)) :
    SLRU_check oh cf true req s = some (ck_res.hit, s2) := by
  rw [SLRU_get] at h
  cases hchk : SLRU_check oh cf true req s with
  | none => rw [hchk] at h; simp at h
  | some p =>
    rcases p with ⟨r1, s1⟩
    rw [hchk] at h
    simp only at h
    cases r1 with
    | hit =>
      simp at h
      rw [h]
    | miss =>
      exfalso
      rw [if_pos (by simp : ck_res.miss = ck_res.miss ∨ ck_res.miss = ck_res.expired)] at h
      by_cases hov : req.obj_size + oh > s1.cache_size
      · rw [if_pos hov] at h; simp at h
      · rw [if_neg hov] at h
        cases hins : SLRU_insert oh req s1 with
        | none => rw [hins] at h; simp at h
        | some s3 => rw [hins] at h; simp at h
    | expired =>
      exfalso
      rw [if_pos (by simp : ck_res.expired = ck_res.miss ∨ ck_res.expired = ck_res.expired)] at h
      by_cases hov : req.obj_size + oh > s1.cache_size
      · rw [if_pos hov] at h; simp at h
      · rw [if_neg hov] at h
        cases hins : SLRU_insert oh req s1 with
        | none => rw [hins] at h; simp at h
        | some s3 => rw [hins] at h; simp at h

theorem SLRU_check_inv (oh cf : Nat) (u : Bool) (req : req_t) (s : slru_t)
    (r : ck_res) (ss : slru_t)
    (h : SLRU_check oh cf u req s = some (r, ss)) :
    ∃ tsout, SLRU_checkFrom oh cf u req s.tiers.length 0 s.tiers = some (r, tsout) ∧
      ss = ⟨s.cache_size, tsout⟩ := by
  rw [SLRU_check] at h
  cases hcf : SLRU_checkFrom oh cf u req s.tiers.length 0 s.tiers with
  | none => rw [hcf] at h; simp at h
  | some p =>
    rcases p with ⟨r0, tsout⟩
    rw [hcf] at h
    simp only [Option.some.injEq, Prod.mk.injEq] at h
    obtain ⟨h1, h2⟩ := h
    subst h1
    exact ⟨tsout, rfl, h2.symm⟩

/-- C2: from a state where key k lives exactly once in the cache, in tier i
with i + 1 below n_seg, a get that returns Hit leaves k resident in tier i+1:
the first tier holding k afterwards is tier i+1, and a subsequent
check(update=false) run that returns, returns Hit having found k there. -/
theorem C2_hit_promotes_one_tier (oh cf i cs : Nat) (ts : List lru_t)
    (ti : lru_t) (req : req_t) (s2 : slru_t)
    (hexp : req.exp = false)
    (htop : i + 1 < ts.length)
    (hti : ts[i]? = some ti)
    (hhas : tierHas ti req.obj_id = true)
    (hcount : tierCount ti req.obj_id = 1)
    (huniq : ∀ j t, j ≠ i → ts[j]? = some t → tierHas t req.obj_id = false)
    (hget : SLRU_get oh cf req ⟨cs, ts⟩ = some (ck_res.hit, s2)) :
    findTier req.obj_id s2.tiers = some (i + 1) ∧
    ∀ cf2 r s3, SLRU_check oh cf2 false req s2 = some (r, s3) → r = ck_res.hit := by
  have hilen : i < ts.length := by omega
  have hcheck := SLRU_get_hit_inv oh cf req ⟨cs, ts⟩ s2 hget
  obtain ⟨tsout, hcf, hs2⟩ := SLRU_check_inv oh cf true req ⟨cs, ts⟩ ck_res.hit s2 hcheck
  simp only at hcf
  -- rewrite the scan: skip the tiers below i
  have hskip := checkFrom_skip oh cf true req i 0 (ts.length - i) ts
    (fun j t hj1 hj2 hjt => huniq j t (by omega) hjt) (by omega)
  have harith : i + (ts.length - i) = ts.length := by omega
  rw [harith] at hskip
  rw [hskip] at hcf
  simp only [Nat.zero_add] at hcf
  have harith2 : ts.length - i = (ts.length - i - 1) + 1 := by omega
  rw [harith2, SLRU_checkFrom] at hcf
  rw [hti] at hcf
  simp only at hcf
  -- the tier check is a hit that moves the found object to the MRU end
  obtain ⟨o, hfo⟩ := findObj_isSome_of_has ti req.obj_id hhas
  have hoid : o.obj_id = req.obj_id := findObj_some_id ti.q req.obj_id o hfo
  have hLc : LRU_check true req ti =
      (ck_res.hit, ⟨ti.cache_size, ti.occupied_size, o :: removeFirst ti.q req.obj_id⟩) := by
    simp [LRU_check, hhas, hexp, hfo]
  rw [hLc] at hcf
  simp only at hcf
  have hnotlast : ¬ i =
      (ts.set i ⟨ti.cache_size, ti.occupied_size, o :: removeFirst ti.q req.obj_id⟩).length - 1 := by
    simp only [List.length_set]
    omega
  rw [if_neg hnotlast] at hcf
  rw [List.set_set] at hcf
  -- name the tier list after the removal
  set mtf : lru_t := ⟨ti.cache_size, ti.occupied_size, o :: removeFirst ti.q req.obj_id⟩ with hmtf
  set ts2 : List lru_t := ts.set i (LRU_remove oh req.obj_id mtf) with hts2
  -- after the removal no tier holds the key
  have hrm : tierHas (LRU_remove oh req.obj_id mtf) req.obj_id = false := by
    have hfo2 : findObj mtf.q req.obj_id = some o := by
      simp only [hmtf]
      simp [findObj, hoid]
    have hq2 : removeFirst mtf.q req.obj_id = removeFirst ti.q req.obj_id := by
      simp only [hmtf]
      simp [removeFirst, hoid]
    have hcnt0 : (removeFirst ti.q req.obj_id).countP
        (fun x => x.obj_id == req.obj_id) = 0 :=
      removeFirst_countP_zero ti.q req.obj_id hcount
    apply tierHas_false_of_all
    intro x hx
    simp only [LRU_remove, hfo2] at hx
    simp only [hq2] at hx
    intro hxid
    have := List.countP_eq_zero.1 hcnt0 x hx
    simp [hxid] at this
  have hnone2 : noneHas ts2 req.obj_id := by
    intro t ht
    obtain ⟨j, hj⟩ := List.mem_iff_getElem?.1 ht
    by_cases hji : j = i
    · subst hji
      rw [hts2, List.getElem?_set_self hilen] at hj
      have : t = LRU_remove oh req.obj_id mtf := by
        exact (Option.some.inj hj).symm
      rw [this]
      exact hrm
    · rw [hts2, List.getElem?_set_ne (fun hh => hji hh.symm)] at hj
      exact huniq j t hji hj
  -- the cooling loop must have succeeded for check to return a value
  cases hcuf : coolUntilFit oh cf (i + 1) req.obj_size ts2 with
  | none => rw [hcuf] at hcf; simp at hcf
  | some ts3 =>
    rw [hcuf] at hcf
    simp only at hcf
    cases hlk : ts3[i + 1]? with
    | none => rw [hlk] at hcf; simp at hcf
    | some tn =>
      rw [hlk] at hcf
      simp only [Option.some.injEq, Prod.mk.injEq, true_and] at hcf
      -- hcf : tsout = final tier list
      have hnone3 : noneHas ts3 req.obj_id :=
        (cool_noneHas oh req.obj_id cf).2 (i + 1) req.obj_size ts2 ts3 hcuf hnone2
      have hlen3 : ts3.length = ts.length := by
        have := ((cool_untouched oh cf).2 (i + 1) req.obj_size ts2 ts3 hcuf).1
        simp only [hts2, List.length_set] at this
        exact this
      have hn1len : i + 1 < ts3.length := by omega
      set fin : List lru_t := ts3.set (i + 1) (LRU_insert oh ⟨req.obj_id, req.obj_size⟩ tn)
        with hfin
      have htsout : tsout = fin := hcf.symm
      have hfin_at : fin[i + 1]? = some (LRU_insert oh ⟨req.obj_id, req.obj_size⟩ tn) := by
        rw [hfin]
        exact List.getElem?_set_self hn1len
      have hfin_has : tierHas (LRU_insert oh ⟨req.obj_id, req.obj_size⟩ tn) req.obj_id = true := by
        simp [tierHas, LRU_insert]
      have hfin_low : ∀ j u, j < i + 1 → fin[j]? = some u → tierHas u req.obj_id = false := by
        intro j u hj hju
        rw [hfin, List.getElem?_set_ne (by omega)] at hju
        exact hnone3 u (List.getElem?_mem hju)
      constructor
      · rw [hs2]
        simp only
        rw [htsout]
        exact findTier_eq_some req.obj_id fin (i + 1)
          (LRU_insert oh ⟨req.obj_id, req.obj_size⟩ tn) hfin_low hfin_at hfin_has
      · intro cf2 r s3 hchk2
        obtain ⟨out2, hcf2, _⟩ := SLRU_check_inv oh cf2 false req s2 r s3 hchk2
        rw [hs2] at hcf2
        simp only at hcf2
        rw [htsout] at hcf2
        have hlenfin : fin.length = ts.length := by
          rw [hfin]
          simp [hlen3]
        have hskip2 := checkFrom_skip oh cf2 false req (i + 1) 0 (fin.length - (i + 1)) fin
          (fun j t hj1 hj2 hjt => hfin_low j t (by omega) hjt) (by omega)
        have harith3 : i + 1 + (fin.length - (i + 1)) = fin.length := by
          rw [hlenfin]; omega
        rw [harith3] at hskip2
        rw [hskip2] at hcf2
        simp only [Nat.zero_add] at hcf2
        have harith4 : fin.length - (i + 1) = (fin.length - (i + 1) - 1) + 1 := by
          rw [hlenfin]; omega
        rw [harith4] at hcf2
        exact checkFrom_hit_result oh cf2 false req (fin.length - (i + 1) - 1) (i + 1) fin
          (LRU_insert oh ⟨req.obj_id, req.obj_size⟩ tn) hfin_at hfin_has hexp r out2 hcf2

/-- C2 witness: a two-tier cache hitting key 5 in tier 0; the key moves to
tier 1 and a second check finds it there. -/
theorem C2_hit_promotes_one_tier_witness :
    findTier 5 (⟨20, [⟨10, 0, []⟩, ⟨10, 1, [⟨5, 1⟩]⟩]⟩ : slru_t).tiers = some 1 ∧
    ∀ cf2 r s3, SLRU_check 0 cf2 false ⟨5, 1, false⟩
        ⟨20, [⟨10, 0, []⟩, ⟨10, 1, [⟨5, 1⟩]⟩]⟩ = some (r, s3) → r = ck_res.hit :=
  C2_hit_promotes_one_tier 0 5 0 20 [⟨10, 1, [⟨5, 1⟩]⟩, ⟨10, 0, []⟩]
    ⟨10, 1, [⟨5, 1⟩]⟩ ⟨5, 1, false⟩ ⟨20, [⟨10, 0, []⟩, ⟨10, 1, [⟨5, 1⟩]⟩]⟩
    rfl (by decide) rfl (by decide) (by decide)
    (by
      intro j t hj hjt
      cases j with
      | zero => exact absurd rfl hj
      | succ n =>
        cases n with
        | zero =>
          simp at hjt
          rw [← hjt]
          decide
        | succ m => simp at hjt)
    (by decide)

/-! ### Lemmas about the insert scan and the eviction loop -/

theorem insertFrom_skip (oh : Nat) (req : req_t) :
    ∀ (m i rem : Nat) (ts : List lru_t),
      (∀ j t, i ≤ j → j < i + m → ts[j]? = some t →
        ¬(t.occupied_size + req.obj_size + oh ≤ t.cache_size)) →
      i + m ≤ ts.length →
      SLRU_insertFrom oh req (m + rem) i ts = SLRU_insertFrom oh req rem (i + m) ts := by
  intro m
  induction m with
  | zero => intro i rem ts _ _; simp
  | succ n ih =>
    intro i rem ts hfull hlen
    have hi : i < ts.length := by omega
    obtain ⟨ti, hti⟩ : ∃ t, ts[i]? = some t := by
      rw [List.getElem?_eq_getElem hi]
      exact ⟨_, rfl⟩
    have hnofit := hfull i ti (Nat.le_refl i) (by omega) hti
    have hstep : SLRU_insertFrom oh req (n + rem + 1) i ts =
        SLRU_insertFrom oh req (n + rem) (i + 1) ts := by
      rw [SLRU_insertFrom]
      rw [hti]
      simp only
      rw [if_neg hnofit]
    have harith : n + 1 + rem = n + rem + 1 := by omega
    rw [harith, hstep]
    have := ih (i + 1) rem ts
      (fun j t hj1 hj2 hjt => hfull j t (by omega) (by omega) hjt) (by omega)
    rw [this]
    have harith2 : i + 1 + n = i + (n + 1) := by omega
    rw [harith2]

theorem evictLoopF_spec (oh sz : Nat) :
    ∀ (n : Nat) (t0 : lru_t), t0.q.length = n → lru_wf oh t0 →
      sz + oh ≤ t0.cache_size →
      ∃ t02, evictLoopF oh sz n t0 = some t02 ∧ t02.cache_size = t0.cache_size ∧
        t02.q = t0.q.take t02.q.length ∧ lru_wf oh t02 ∧
        t02.occupied_size + sz + oh ≤ t02.cache_size := by
  intro n
  induction n with
  | zero =>
    intro t0 hlen hwf hfit
    have hq : t0.q = [] := List.length_eq_zero.1 hlen
    have hocc : t0.occupied_size = 0 := by
      rw [hwf, hq]; simp
    have hcond : t0.occupied_size + sz + oh ≤ t0.cache_size := by omega
    refine ⟨t0, ?_, rfl, by simp [hq], hwf, hcond⟩
    simp [evictLoopF, hcond]
  | succ n ih =>
    intro t0 hlen hwf hfit
    by_cases hc : t0.occupied_size + sz + oh ≤ t0.cache_size
    · refine ⟨t0, ?_, rfl, by simp [List.take_length], hwf, hc⟩
      rw [evictLoopF]
      rw [if_pos hc]
    · have hqne : t0.q ≠ [] := by
        intro hq
        have : t0.occupied_size = 0 := by rw [hwf, hq]; simp
        omega
      obtain ⟨e, hlast⟩ : ∃ e, t0.q.getLast? = some e := by
        have := List.getLast?_isSome.2 hqne
        exact Option.isSome_iff_exists.1 this
      have hsplit : t0.q.dropLast ++ [e] = t0.q :=
        List.dropLast_append_getLast? e (Option.mem_def.2 hlast)
      have hsum : t0.occupied_size =
          (t0.q.dropLast.map (fun o => o.obj_size + oh)).sum + (e.obj_size + oh) := by
        rw [hwf]
        conv_lhs => rw [← hsplit]
        simp
      set t1 : lru_t := ⟨t0.cache_size, t0.occupied_size - (e.obj_size + oh),
        t0.q.dropLast⟩ with ht1
      have hev : LRU_evict oh t0 = (some e, t1) := by
        unfold LRU_evict
        rw [hlast]
      have hlen1 : t1.q.length = n := by
        rw [ht1]
        simp only [List.length_dropLast, hlen]
        omega
      have hwf1 : lru_wf oh t1 := by
        rw [lru_wf, ht1]
        simp only
        omega
      obtain ⟨t02, hloop, hcap, htake, hwf2, hfit2⟩ := ih t1 hlen1 hwf1 (by rw [ht1]; exact hfit)
      have hlen02 : t02.q.length ≤ n := by
        have hh := congrArg List.length htake
        rw [List.length_take, hlen1] at hh
        omega
      have ht1q : t1.q = t0.q.take n := by
        rw [ht1]
        simp only [List.dropLast_eq_take, hlen, Nat.add_sub_cancel]
      refine ⟨t02, ?_, by rw [hcap, ht1], ?_, hwf2, hfit2⟩
      · rw [evictLoopF]
        rw [if_neg hc]
        rw [hev]
        exact hloop
      · calc t02.q = t1.q.take t02.q.length := htake
          _ = (t0.q.take n).take t02.q.length := by rw [ht1q]
          _ = t0.q.take (min t02.q.length n) := List.take_take t02.q.length n t0.q
          _ = t0.q.take t02.q.length := by rw [Nat.min_eq_left hlen02]

/-- C4: SLRU_insert puts the object into the lowest-indexed tier that fits it
with no eviction at all (the state change is exactly that tier gaining the
object at its MRU end); when no tier fits, tier 0 is evicted from its LRU end
until the object fits (its recency list becomes a prefix of the old one) and
the object enters tier 0.  The eviction loop needs the object to fit an empty
tier 0 (obj_size + overhead ≤ capacity, which the spec's until-it-fits wording
presupposes) and tier 0's accounting invariant. -/
theorem C4_insert_lowest_fit_or_evict (oh : Nat) (req : req_t) (cs : Nat)
    (ts : List lru_t) :
    (∀ (i : Nat) (ti : lru_t), ts[i]? = some ti →
      (∀ (j : Nat) (t : lru_t), j < i → ts[j]? = some t →
        ¬(t.occupied_size + req.obj_size + oh ≤ t.cache_size)) →
      ti.occupied_size + req.obj_size + oh ≤ ti.cache_size →
      SLRU_insert oh req ⟨cs, ts⟩ =
        some ⟨cs, ts.set i (LRU_insert oh ⟨req.obj_id, req.obj_size⟩ ti)⟩) ∧
    (∀ t0 : lru_t, ts[0]? = some t0 →
      (∀ (j : Nat) (t : lru_t), ts[j]? = some t →
        ¬(t.occupied_size + req.obj_size + oh ≤ t.cache_size)) →
      lru_wf oh t0 → req.obj_size + oh ≤ t0.cache_size →
      ∃ t02, evictLoopF oh req.obj_size t0.q.length t0 = some t02 ∧
        t02.cache_size = t0.cache_size ∧
        t02.q = t0.q.take t02.q.length ∧
        t02.occupied_size + req.obj_size + oh ≤ t02.cache_size ∧
        SLRU_insert oh req ⟨cs, ts⟩ =
          some ⟨cs, ts.set 0 (LRU_insert oh ⟨req.obj_id, req.obj_size⟩ t02)⟩) := by
  constructor
  · intro i ti hti hbelow hfit
    have hilen : i < ts.length := by
      cases List.getElem?_eq_some.1 hti with
      | intro h _ => exact h
    rw [SLRU_insert]
    simp only
    have hskip := insertFrom_skip oh req i 0 (ts.length - i) ts
      (fun j t hj1 hj2 hjt => hbelow j t (by omega) hjt) (by omega)
    have harith : i + (ts.length - i) = ts.length := by omega
    rw [harith] at hskip
    rw [hskip]
    simp only [Nat.zero_add]
    have harith2 : ts.length - i = (ts.length - i - 1) + 1 := by omega
    rw [harith2, SLRU_insertFrom]
    rw [hti]
    simp only
    rw [if_pos hfit]
  · intro t0 ht0 hall hwf hcap
    obtain ⟨t02, hloop, hcapeq, htake, hwf2, hfit2⟩ :=
      evictLoopF_spec oh req.obj_size t0.q.length t0 rfl hwf hcap
    refine ⟨t02, hloop, hcapeq, htake, by omega, ?_⟩
    rw [SLRU_insert]
    simp only
    have hskip := insertFrom_skip oh req ts.length 0 0 ts
      (fun j t hj1 hj2 hjt => hall j t hjt) (by omega)
    simp only [Nat.add_zero, Nat.zero_add] at hskip
    rw [hskip]
    rw [SLRU_insertFrom]
    rw [ht0]
    simp only
    rw [hloop]

/-- C4 witness: a fitting insert into tier 1 of a two-tier cache whose tier 0
is full, and an all-full single-tier cache that evicts twice before
inserting. -/
theorem C4_insert_lowest_fit_or_evict_witness :
    SLRU_insert 0 ⟨2, 1, false⟩ ⟨6, [⟨3, 3, [⟨1, 3⟩]⟩, ⟨3, 0, []⟩]⟩ =
      some ⟨6, ([⟨3, 3, [⟨1, 3⟩]⟩, ⟨3, 0, []⟩] : List lru_t).set 1
        (LRU_insert 0 ⟨2, 1⟩ ⟨3, 0, []⟩)⟩ ∧
    ∃ t02, evictLoopF 0 2 ([⟨1, 2⟩, ⟨2, 1⟩] : List cobj).length ⟨3, 3, [⟨1, 2⟩, ⟨2, 1⟩]⟩ =
        some t02 ∧
      t02.cache_size = 3 ∧
      t02.q = ([⟨1, 2⟩, ⟨2, 1⟩] : List cobj).take t02.q.length ∧
      t02.occupied_size + 2 + 0 ≤ t02.cache_size ∧
      SLRU_insert 0 ⟨9, 2, false⟩ ⟨3, [⟨3, 3, [⟨1, 2⟩, ⟨2, 1⟩]⟩]⟩ =
        some ⟨3, ([⟨3, 3, [⟨1, 2⟩, ⟨2, 1⟩]⟩] : List lru_t).set 0
          (LRU_insert 0 ⟨9, 2⟩ t02)⟩ := by
  constructor
  · exact (C4_insert_lowest_fit_or_evict 0 ⟨2, 1, false⟩ 6
      [⟨3, 3, [⟨1, 3⟩]⟩, ⟨3, 0, []⟩]).1 1 ⟨3, 0, []⟩ rfl
      (by
        intro j t hj hjt
        cases j with
        | zero => simp at hjt; rw [← hjt]; decide
        | succ m => omega)
      (by decide)
  · exact (C4_insert_lowest_fit_or_evict 0 ⟨9, 2, false⟩ 3
      [⟨3, 3, [⟨1, 2⟩, ⟨2, 1⟩]⟩]).2 ⟨3, 3, [⟨1, 2⟩, ⟨2, 1⟩]⟩ rfl
      (by
        intro j t hjt
        cases j with
        | zero => simp at hjt; rw [← hjt]; decide
        | succ m => simp at hjt)
      rfl (by decide)

/-- C3: the oversize guard of SLRU_get compares the request's footprint with
cache->cache_size, the originally requested total, not with the sum of the
tier capacities left after the integer division of SLRU_init.  With requested
size 10 and 3 tiers the tiers hold 3+3+3 = 9 bytes; a 10-byte object exceeds
the claim's total_capacity, so the claim demands Miss with no insert, yet the
code's guard (10 > 10 is false) lets it through to SLRU_insert, where no tier
can ever fit it and the tier-0 eviction loop cannot terminate (the model
returns none where the C code evicts from an empty LRU and loops). -/
theorem C3_oversize_guard_gap :
    totalCapacity (SLRU_init 10 3).tiers = 9 ∧
    ¬(10 + 0 > (SLRU_init 10 3).cache_size) ∧
    SLRU_insert 0 ⟨1, 10, false⟩ (SLRU_init 10 3) = none ∧
    SLRU_get 0 5 ⟨1, 10, false⟩ (SLRU_init 10 3) = none := by
  refine ⟨by decide, by decide, by decide, by decide⟩

end LibCacheSim
